import Mathlib

/-!
Verification of the atomic-operations benchmark core of the repository:
the lock-free bounded queue and producer/consumer harness
(`src/unnamed/part_003`) and the atomic counter race harness
(`src/1700_atomic_operations/lse_benchmark.c`).

The C code is shallowly embedded: the queue structure and its operations
are pure functions mirroring the source statement by statement; the
concurrent parts (producer/consumer threads, the increment strategies)
are small-step machines whose atomic events are exactly the C11 atomic
loads/stores (and the exclusive load/store pair) of the source, driven by
an arbitrary interleaving schedule.  Machine integers (`int`,
`_Atomic int`) are modelled as bit patterns in `Nat` reduced modulo
2^32 where overflow can occur.
-/

/-- 2^32, the modulus of 32-bit machine arithmetic (`int` wraps at this). -/
def two32 : Nat := 4294967296

/-- The signed value printed by `printf("%d", ...)` for a 32-bit pattern. -/
def toSigned (n : Nat) : Int :=
  if n < 2147483648 then (n : Int) else (n : Int) - 4294967296

/-- `lockfree_queue_t` from src/unnamed/part_003: a backing buffer
addressed by index, `head`, `tail` and `size` fields.  The buffer is a
total map from indices to `int` values (only indices `< size` are ever
used by the code). -/
structure LFQueue where
  buffer : Nat → Int
  head : Nat
  tail : Nat
  size : Nat

/-- `queue_init`: head = 0, tail = 0, size as given; the buffer comes
from `malloc`, i.e. holds arbitrary initial content `buf0`. -/
def queue_init (buf0 : Nat → Int) (size : Nat) : LFQueue :=
  { buffer := buf0, head := 0, tail := 0, size := size }

/-- `queue_enqueue`: read tail, compute `next_tail = (tail+1) % size`;
if `next_tail == head` report failure leaving the queue untouched, else
write the item at `tail` and store `next_tail` into `tail`.  Returns the
updated queue and the `int` result (1 = success) as a `Bool`. -/
def queue_enqueue (q : LFQueue) (item : Int) : LFQueue × Bool :=
  let tail := q.tail
  let next_tail := (tail + 1) % q.size
  if next_tail = q.head then (q, false)
  else ({ q with buffer := (fun i => if i = tail then item else q.buffer i), tail := next_tail }, true)

/-- `queue_dequeue`: read head; if `head == tail` report failure leaving
the queue untouched, else read `buffer[head]` (the `*item` out
parameter, returned here as `some value`) and advance head. -/
def queue_dequeue (q : LFQueue) : LFQueue × Option Int :=
  let head := q.head
  if head = q.tail then (q, none)
  else ({ q with head := (head + 1) % q.size }, some (q.buffer head))

/-- Number of resident (enqueued, unconsumed) elements:
`(tail - head) mod size`, written over `Nat` as `(tail + size - head) % size`
(equal to the C expression for in-range head/tail). -/
def residentLen (q : LFQueue) : Nat := (q.tail + q.size - q.head) % q.size

/-- A sequential queue operation (used to describe the states reachable
from the freshly initialised queue). -/
inductive QOp where
  | enq (v : Int)
  | deq

/-- Apply one operation, keeping the resulting queue state. -/
def applyQOp (q : LFQueue) : QOp → LFQueue
  | .enq v => (queue_enqueue q v).1
  | .deq => (queue_dequeue q).1

/-- Run a sequence of enqueue/dequeue operations. -/
def runQOps (q : LFQueue) (ops : List QOp) : LFQueue :=
  ops.foldl applyQOp q

/-! ## Two racing producers: the atomic events of `queue_enqueue` interleaved

`queue_enqueue` touches shared state in four separately-atomic events
(C11 `atomic_load`/`atomic_store` and the plain buffer write): load of
`tail`, load of `head` (the full check), the buffer write, the store of
`next_tail`.  `PPC` is the program counter of one producer thread inside
`queue_enqueue`, carrying the locally loaded `tail` value. -/
inductive PPC where
  | start
  | loaded (t : Nat)
  | checked (t : Nat)
  | written (t : Nat)
  | done (ok : Bool)
  deriving DecidableEq

/-- One atomic event of a producer executing `queue_enqueue q item`,
from program counter state `pc`. -/
def ppcStep (q : LFQueue) (item : Int) : PPC → LFQueue × PPC
  | .start => (q, .loaded q.tail)
  | .loaded t =>
    if (t + 1) % q.size = q.head then (q, .done false) else (q, .checked t)
  | .checked t =>
    ({ q with buffer := (fun i => if i = t then item else q.buffer i) }, .written t)
  | .written t =>
    ({ q with tail := (t + 1) % q.size }, .done true)
  | .done ok => (q, .done ok)

/-- State of two producer threads concurrently executing `queue_enqueue`
on the shared queue. -/
structure MPState where
  q : LFQueue
  p0 : PPC
  p1 : PPC

def mpInit (buf0 : Nat → Int) (size : Nat) : MPState :=
  { q := queue_init buf0 size, p0 := .start, p1 := .start }

/-- Scheduler step: `tid = false` runs one atomic event of producer 0
(enqueueing `item0`), `tid = true` one event of producer 1. -/
def mpStep (item0 item1 : Int) (s : MPState) (tid : Bool) : MPState :=
  if tid then
    let r := ppcStep s.q item1 s.p1
    { s with q := r.1, p1 := r.2 }
  else
    let r := ppcStep s.q item0 s.p0
    { s with q := r.1, p0 := r.2 }

def mpRun (item0 item1 : Int) (s : MPState) (sched : List Bool) : MPState :=
  sched.foldl (mpStep item0 item1) s

/-! ## Single producer / single consumer at the atomicity of the source

The producer's `queue_enqueue` is split at its shared-memory boundary:
one step performs the tail load, the full check and the payload write
into the buffer (all thread-local except the buffer slot the producer
owns), the second step publishes the new `tail` index — exactly the
store ordering of the source (payload write strictly before index
publish).  The consumer is split symmetrically: one step checks
non-emptiness and reads the slot, the second advances `head`.  The
producer retries while full, the consumer while empty (failed attempts
change nothing, as in the source's retry loops). -/
structure SPSCState where
  q : LFQueue
  pending : List Int
  prodNext : Option Nat
  consVal : Option Int
  consumed : List Int

def spscInit (buf0 : Nat → Int) (size : Nat) (vals : List Int) : SPSCState :=
  { q := queue_init buf0 size, pending := vals, prodNext := none, consVal := none, consumed := [] }

/-- One producer step: publish a previously written payload, or (when
idle) run the load/check/write half of `queue_enqueue` on the next
pending value; a full queue leaves the state unchanged (retry). -/
def prodStep (s : SPSCState) : SPSCState :=
  match s.prodNext with
  | some nt => { s with q := { s.q with tail := nt }, prodNext := none }
  | none =>
    match s.pending with
    | [] => s
    | v :: vs =>
      let tail := s.q.tail
      let next_tail := (tail + 1) % s.q.size
      if next_tail = s.q.head then s
      else { s with q := { s.q with buffer := (fun i => if i = tail then v else s.q.buffer i) }, pending := vs, prodNext := some next_tail }

/-- One consumer step: advance `head` past a previously read value, or
(when idle) run the check/read half of `queue_dequeue`; an empty queue
leaves the state unchanged (retry). -/
def consStep (s : SPSCState) : SPSCState :=
  match s.consVal with
  | some v => { s with q := { s.q with head := (s.q.head + 1) % s.q.size }, consVal := none, consumed := s.consumed ++ [v] }
  | none =>
    if s.q.head = s.q.tail then s
    else { s with consVal := some (s.q.buffer s.q.head) }

def spscStep (s : SPSCState) (isProd : Bool) : SPSCState :=
  if isProd then prodStep s else consStep s

def spscRun (s : SPSCState) (sched : List Bool) : SPSCState :=
  sched.foldl spscStep s

/-- The value written into the buffer but not yet published by `tail`. -/
def prodInflight (s : SPSCState) : List Int :=
  match s.prodNext with
  | some _ => [s.q.buffer s.q.tail]
  | none => []

/-- Coupling invariant of the SPSC machine: indices stay in range, an
unpublished `next_tail` is exactly one past `tail` and distinct from
`head`, a read-but-unconsumed value is the current head slot, and the
original value sequence decomposes as consumed values, then the resident
buffer segment `[head, tail)`, then the written-but-unpublished value,
then the values not yet produced. -/
def SPSCInv (vals : List Int) (s : SPSCState) : Prop :=
  1 ≤ s.q.size ∧ s.q.head < s.q.size ∧ s.q.tail < s.q.size
  ∧ (∀ nt, s.prodNext = some nt → nt = (s.q.tail + 1) % s.q.size ∧ nt ≠ s.q.head)
  ∧ (∀ v, s.consVal = some v → s.q.head ≠ s.q.tail ∧ v = s.q.buffer s.q.head)
  ∧ ∃ xs : List Int, xs.length < s.q.size
      ∧ s.q.tail = (s.q.head + xs.length) % s.q.size
      ∧ (∀ i, i < xs.length → s.q.buffer ((s.q.head + i) % s.q.size) = xs.getD i 0)
      ∧ vals = s.consumed ++ xs ++ prodInflight s ++ s.pending

/-! ## The shared-memory event trace of one `queue_enqueue` call -/

/-- A shared-memory access performed by `queue_enqueue`. -/
inductive QEvent where
  | loadTailEv (t : Nat)
  | loadHeadEv (h : Nat)
  | writeBufEv (i : Nat) (v : Int)
  | storeTailEv (t : Nat)
  deriving DecidableEq

/-- The ordered sequence of shared-memory accesses `queue_enqueue`
performs, in the statement order of the source: load `tail`, load `head`
(the full check), then — on the success path only — the payload write to
`buffer[tail]` followed by the store publishing `next_tail`. -/
def queue_enqueue_events (q : LFQueue) (item : Int) : List QEvent :=
  let tail := q.tail
  let next_tail := (tail + 1) % q.size
  if next_tail = q.head then [QEvent.loadTailEv tail, QEvent.loadHeadEv q.head]
  else [QEvent.loadTailEv tail, QEvent.loadHeadEv q.head, QEvent.writeBufEv tail item, QEvent.storeTailEv next_tail]

/-! ## The atomic counter race of lse_benchmark.c

`atomic_increment_thread` runs `num_iterations` increments of the shared
`_Atomic int` counter, either via `atomic_fetch_add` (one atomic event)
or via the `ldxr`/`stxr` exclusive-load/exclusive-store retry loop.  The
machine below keeps, per thread id: the remaining iteration count and
the state of its exclusive reservation (`some old` = a valid exclusive
load of the value `old` whose conditional store has not yet run; any
store to the counter by any thread invalidates every reservation, which
is what makes a successful `stxr` conditional on no intervening store —
a failed `stxr` leaves memory untouched and the loop retries from the
load).  The counter itself is the 32-bit pattern of the C `int`, so each
increment is taken modulo 2^32 (C11 atomic arithmetic on signed ints is
two's-complement with silent wraparound). -/
structure CState where
  counter : Nat
  rem : Nat → Nat
  res : Nat → Option Nat

/-- All threads start with `iters` iterations to do; counter zeroed. -/
def cinit (iters : Nat) : CState :=
  { counter := 0, rem := fun _ => iters, res := fun _ => none }

/-- One atomic event of thread `i` (`useLSE i` selects the strategy, as
the `use_lse` field of `thread_arg_t` does). -/
def cstep (useLSE : Nat → Bool) (s : CState) (i : Nat) : CState :=
  if useLSE i then
    if s.rem i = 0 then s
    else { counter := (s.counter + 1) % two32, rem := Function.update s.rem i (s.rem i - 1), res := fun _ => none }
  else
    match s.res i with
    | some old =>
      { counter := (old + 1) % two32, rem := Function.update s.rem i (s.rem i - 1), res := fun _ => none }
    | none =>
      if s.rem i = 0 then s
      else { s with res := Function.update s.res i (some s.counter) }

def crun (useLSE : Nat → Bool) (s : CState) (sched : List Nat) : CState :=
  sched.foldl (cstep useLSE) s

/-- Invariant of the counter race: the counter pattern is the number of
completed increments mod 2^32, every thread has at most `I` iterations
left, and a valid reservation holds the current counter value and
belongs to a thread still inside its loop. -/
def CInv (T I : Nat) (s : CState) : Prop :=
  (∀ i, s.rem i ≤ I)
  ∧ s.counter = (∑ i in Finset.range T, (I - s.rem i)) % two32
  ∧ (∀ i o, s.res i = some o → o = s.counter ∧ 1 ≤ s.rem i)

/-! ## The harness totals (producer values and the expected-total loop)

`producer_thread` emits `thread_id * num_items + i + 1` for
`i = 0 .. num_items-1`; `consumer_thread` accumulates dequeued items
into the shared `_Atomic int total`; `main` computes `expected_total`
with a double loop over the same values in plain `int` arithmetic.  Both
totals are 32-bit, so the faithful embedding reduces every addition
modulo 2^32; `expected_total_exact` is the same loop in unbounded
arithmetic, used to state what the mathematical sum is. -/

/-- The value sequence of producer `p` (`item = thread_id * num_items + i + 1`). -/
def producedValues (p M : Nat) : List Nat :=
  (List.range M).map (fun i => p * M + i + 1)

/-- The `expected_total` double loop of `main`, in unbounded arithmetic. -/
def expected_total_exact (P M : Nat) : Nat :=
  (List.range P).foldl (fun acc p => (List.range M).foldl (fun a j => a + (p * M + j + 1)) acc) 0

/-- The `expected_total` double loop of `main` as executed on a 32-bit
`int`: every item and every partial sum wraps modulo 2^32. -/
def expected_total_int (P M : Nat) : Nat :=
  (List.range P).foldl (fun acc p => (List.range M).foldl (fun a j => (a + (p * M + j + 1) % two32) % two32) acc) 0

/-- The consumers' shared `total` after `atomic_fetch_add`-ing a list of
items, as a 32-bit pattern (wrapping at each addition). -/
def wsum32 (l : List Nat) : Nat :=
  l.foldl (fun a x => (a + x % two32) % two32) 0

/-! ## The reporting and allocation behaviour of the two `main`s -/

def finalTotalLabel : String := "Final total: "

def expectedTotalLabel : String := "Expected total: "

def finalCounterLabel : String := "Final counter value: "

/-- The result lines `main` of part_003 prints after joining all
threads: the observed total and the expected total, with no comparison
between them and no further output depending on whether they agree. -/
def part003_report (total expected : Int) : List String :=
  [finalTotalLabel ++ toString total, expectedTotalLabel ++ toString expected]

/-- part_003's `main` returns 0 unconditionally. -/
def part003_exit : Nat := 0

/-- The per-strategy result line of lse_benchmark.c's `main` (printed
once for each counter; no expected value is computed or compared). -/
def lse_report (counter : Int) : String :=
  finalCounterLabel ++ toString counter

/-- lse_benchmark.c's `main` returns 0 on its normal path. -/
def lse_exit : Nat := 0

def mallocDiag : String := "malloc"

/-- Outcome of a harness's start-up: abort with a diagnostic and exit
code, or proceed to run the scenario. -/
inductive StartOutcome where
  | aborted (diagnostic : String) (code : Nat)
  | proceeded
  deriving DecidableEq

/-- The allocation check of lse_benchmark.c's `main`: if either
`malloc` returned NULL (`mi = false`), print the `perror` diagnostic and
return 1 before any scenario runs. -/
def lse_alloc_check (m1 m2 : Bool) : StartOutcome :=
  if m1 = false ∨ m2 = false then StartOutcome.aborted mallocDiag 1 else StartOutcome.proceeded

/-- `lockfree_queue_t` with the allocation outcome kept: `buffer` is
`none` when `malloc` failed. -/
structure LFQueueA where
  buffer : Option (Nat → Int)
  head : Nat
  tail : Nat
  size : Nat

/-- `queue_init` stores whatever `malloc` returned — possibly NULL —
without any check, and returns normally. -/
def queue_init_alloc (alloc : Option (Nat → Int)) (size : Nat) : LFQueueA :=
  { buffer := alloc, head := 0, tail := 0, size := size }

/-- Start-up outcome of part_003's `main` together with the queue it
proceeds with. -/
inductive QueueStart where
  | aborted (diagnostic : String) (code : Nat)
  | proceeded (q : LFQueueA)

/-- part_003's `main` calls `queue_init(&queue, QUEUE_SIZE)` and then
unconditionally proceeds to spawn the threads: there is no allocation
check on this path. -/
def part003_start (alloc : Option (Nat → Int)) : QueueStart :=
  QueueStart.proceeded (queue_init_alloc alloc 1000000)

def QueueStart.didProceed : QueueStart → Bool
  | .proceeded _ => true
  | .aborted _ _ => false

def QueueStart.bufferMissing : QueueStart → Bool
  | .proceeded q => q.buffer.isNone
  | .aborted _ _ => false

/-! ## DEFS-END -/

/-! ## Structural helper lemmas about reachable queue states -/

theorem applyQOp_size (q : LFQueue) (op : QOp) : (applyQOp q op).size = q.size := by
  cases op with
  | enq v =>
    simp only [applyQOp, queue_enqueue]
    split <;> rfl
  | deq =>
    simp only [applyQOp, queue_dequeue]
    split <;> rfl

theorem applyQOp_bounds (q : LFQueue) (op : QOp) (hs : 1 ≤ q.size)
    (hh : q.head < q.size) (ht : q.tail < q.size) :
    (applyQOp q op).head < q.size ∧ (applyQOp q op).tail < q.size := by
  cases op with
  | enq v =>
    simp only [applyQOp, queue_enqueue]
    split
    · exact ⟨hh, ht⟩
    · exact ⟨hh, Nat.mod_lt _ hs⟩
  | deq =>
    simp only [applyQOp, queue_dequeue]
    split
    · exact ⟨hh, ht⟩
    · exact ⟨Nat.mod_lt _ hs, ht⟩

theorem runQOps_size (q : LFQueue) (ops : List QOp) :
    (runQOps q ops).size = q.size := by
  induction ops generalizing q with
  | nil => rfl
  | cons op ops ih =>
    simp only [runQOps, List.foldl_cons] at *
    rw [ih (applyQOp q op), applyQOp_size]

theorem runQOps_bounds (q : LFQueue) (ops : List QOp) (hs : 1 ≤ q.size)
    (hh : q.head < q.size) (ht : q.tail < q.size) :
    (runQOps q ops).head < q.size ∧ (runQOps q ops).tail < q.size := by
  induction ops generalizing q with
  | nil => exact ⟨hh, ht⟩
  | cons op ops ih =>
    simp only [runQOps, List.foldl_cons] at *
    have hb := applyQOp_bounds q op hs hh ht
    have hsz := applyQOp_size q op
    have h2 := ih (applyQOp q op) (by rw [hsz]; exact hs)
      (by rw [hsz]; exact hb.1) (by rw [hsz]; exact hb.2)
    rwa [hsz] at h2

/-! ## Arithmetic helpers for circular-index reasoning -/

theorem addModCancel {n a i j : Nat} (hi : i < n) (hj : j < n)
    (h : (a + i) % n = (a + j) % n) : i = j := by
  have h2 : i % n = j % n := Nat.ModEq.add_left_cancel' a h
  rwa [Nat.mod_eq_of_lt hi, Nat.mod_eq_of_lt hj] at h2

theorem succ_mod_ne_self {n a : Nat} (hn : 2 ≤ n) (ha : a < n) :
    (a + 1) % n ≠ a := by
  intro h
  have h0 : (a + 1) % n = (a + 0) % n := by
    rw [h]
    rw [Nat.add_zero, Nat.mod_eq_of_lt ha]
  have := addModCancel (n := n) (a := a) (by omega) (by omega) h0
  omega

/-! ## Result shapes of the sequential operations -/

theorem enqueue_snd_false_iff (q : LFQueue) (v : Int) :
    (queue_enqueue q v).2 = false ↔ (q.tail + 1) % q.size = q.head := by
  simp only [queue_enqueue]
  split <;> simp_all

theorem dequeue_snd_none_iff (q : LFQueue) :
    (queue_dequeue q).2 = none ↔ q.head = q.tail := by
  simp only [queue_dequeue]
  split <;> simp_all

theorem dequeue_success_queue (q : LFQueue) (h : q.head ≠ q.tail) :
    (queue_dequeue q).1 = { q with head := (q.head + 1) % q.size } := by
  simp [queue_dequeue, h]

theorem succModCancel {n a b : Nat} (ha : a < n) (hb : b < n)
    (h : (a + 1) % n = (b + 1) % n) : a = b := by
  rw [Nat.add_comm a 1, Nat.add_comm b 1] at h
  exact addModCancel ha hb h

theorem spscInit_inv (buf0 : Nat → Int) (size : Nat) (vals : List Int)
    (hs : 1 ≤ size) : SPSCInv vals (spscInit buf0 size vals) := by
  refine ⟨hs, hs, hs, ?_, ?_, [], ?_, ?_, ?_, ?_⟩
  · intro nt h
    simp [spscInit] at h
  · intro v h
    simp [spscInit] at h
  · simpa using hs
  · simp [spscInit, queue_init]
  · intro i hi
    simp at hi
  · simp [spscInit, prodInflight, queue_init]

theorem prodStep_inv {vals : List Int} {s : SPSCState} (h : SPSCInv vals s) :
    SPSCInv vals (prodStep s) := by
  obtain ⟨hs, hh, ht, hp, hc, xs, hxl, hxt, hxe, hch⟩ := h
  cases hpn : s.prodNext with
  | some nt =>
    obtain ⟨hnt, hne⟩ := hp nt hpn
    have hmain : prodStep s = { s with q := { s.q with tail := nt }, prodNext := none } := by
      unfold prodStep
      rw [hpn]
    rw [hmain]
    have hLsucc : xs.length + 1 < s.q.size := by
      rcases Nat.lt_or_ge (xs.length + 1) s.q.size with h1 | h1
      · exact h1
      · exfalso
        have hEq : xs.length + 1 = s.q.size := by omega
        apply hne
        rw [hnt, hxt, Nat.mod_add_mod, Nat.add_assoc, hEq, Nat.add_mod_right,
          Nat.mod_eq_of_lt hh]
    refine ⟨hs, hh, ?_, ?_, ?_, xs ++ [s.q.buffer s.q.tail], ?_, ?_, ?_, ?_⟩
    · rw [hnt]
      exact Nat.mod_lt _ hs
    · intro nt' h'
      simp at h'
    · intro v hv
      obtain ⟨h1, h2⟩ := hc v hv
      exact ⟨fun hEq => hne hEq.symm, h2⟩
    · simpa using hLsucc
    · simp only [List.length_append, List.length_cons, List.length_nil]
      rw [hnt, hxt, Nat.mod_add_mod, Nat.add_assoc]
    · intro i hi
      simp only [List.length_append, List.length_cons, List.length_nil, Nat.add_zero] at hi
      rcases Nat.lt_or_ge i xs.length with h1 | h1
      · rw [List.getD_append _ _ _ _ h1]
        exact hxe i h1
      · have hiL : i = xs.length := by omega
        subst hiL
        rw [List.getD_append_right _ _ _ _ (Nat.le_refl _), Nat.sub_self, ← hxt]
        rfl
    · have hPI : prodInflight s = [s.q.buffer s.q.tail] := by
        unfold prodInflight
        rw [hpn]
      have hPI' : prodInflight { s with q := { s.q with tail := nt }, prodNext := none } = [] := rfl
      rw [hPI'] at *
      rw [hch, hPI]
      simp
  | none =>
    cases hpd : s.pending with
    | nil =>
      have hmain : prodStep s = s := by
        unfold prodStep
        rw [hpn, hpd]
      rw [hmain]
      exact ⟨hs, hh, ht, hp, hc, xs, hxl, hxt, hxe, hch⟩
    | cons v vs =>
      by_cases hfull : (s.q.tail + 1) % s.q.size = s.q.head
      · have hmain : prodStep s = s := by
          unfold prodStep
          rw [hpn, hpd]
          simp [hfull]
        rw [hmain]
        exact ⟨hs, hh, ht, hp, hc, xs, hxl, hxt, hxe, hch⟩
      · have hmain : prodStep s = { s with q := { s.q with buffer := (fun i => if i = s.q.tail then v else s.q.buffer i) }, pending := vs, prodNext := some ((s.q.tail + 1) % s.q.size) } := by
          unfold prodStep
          rw [hpn, hpd]
          simp [hfull]
        rw [hmain]
        refine ⟨hs, hh, ht, ?_, ?_, xs, hxl, hxt, ?_, ?_⟩
        · intro nt' h'
          dsimp only at h' ⊢
          simp only [Option.some.injEq] at h'
          subst h'
          exact ⟨rfl, hfull⟩
        · intro w hw
          dsimp only at hw ⊢
          obtain ⟨h1, h2⟩ := hc w hw
          refine ⟨h1, ?_⟩
          rw [if_neg h1, h2]
        · intro i hi
          dsimp only at hi ⊢
          have hneq : (s.q.head + i) % s.q.size ≠ s.q.tail := by
            intro hEq
            rw [hxt] at hEq
            have := addModCancel (Nat.lt_trans hi hxl) hxl hEq
            omega
          rw [if_neg hneq]
          exact hxe i hi
        · have hPI : prodInflight s = [] := by
            unfold prodInflight
            rw [hpn]
          have hPI2 : prodInflight { s with q := { s.q with buffer := (fun i => if i = s.q.tail then v else s.q.buffer i) }, pending := vs, prodNext := some ((s.q.tail + 1) % s.q.size) } = [v] := by
            unfold prodInflight
            simp
          dsimp only
          rw [hPI2, hch, hPI, hpd]
          simp

theorem consStep_inv {vals : List Int} {s : SPSCState} (h : SPSCInv vals s) :
    SPSCInv vals (consStep s) := by
  obtain ⟨hs, hh, ht, hp, hc, xs, hxl, hxt, hxe, hch⟩ := h
  cases hcv : s.consVal with
  | some v =>
    obtain ⟨hne, hv⟩ := hc v hcv
    have hmain : consStep s = { s with q := { s.q with head := (s.q.head + 1) % s.q.size }, consVal := none, consumed := s.consumed ++ [v] } := by
      unfold consStep
      rw [hcv]
    rw [hmain]
    have hL0 : xs.length ≠ 0 := by
      intro h0
      apply hne
      rw [hxt, h0, Nat.add_zero, Nat.mod_eq_of_lt hh]
    cases hxs : xs with
    | nil =>
      exfalso
      rw [hxs] at hL0
      exact hL0 rfl
    | cons x rest =>
      subst hxs
      have hx : x = v := by
        have h0 := hxe 0 (by simp)
        rw [Nat.add_zero, Nat.mod_eq_of_lt hh] at h0
        rw [hv, h0]
        rfl
      refine ⟨hs, ?_, ht, ?_, ?_, rest, ?_, ?_, ?_, ?_⟩
      · dsimp only
        exact Nat.mod_lt _ hs
      · intro nt h'
        dsimp only at h' ⊢
        obtain ⟨h1, h2⟩ := hp nt h'
        refine ⟨h1, ?_⟩
        intro hEq
        rw [h1] at hEq
        exact hne (succModCancel ht hh hEq).symm
      · intro w hw
        dsimp only at hw
        simp at hw
      · dsimp only
        simp only [List.length_cons] at hxl
        omega
      · dsimp only
        simp only [List.length_cons] at hxt
        rw [Nat.mod_add_mod, hxt]
        congr 1
        omega
      · intro i hi
        dsimp only at hi ⊢
        rw [Nat.mod_add_mod]
        have h2 := hxe (i + 1) (by simp only [List.length_cons]; omega)
        rw [show s.q.head + 1 + i = s.q.head + (i + 1) by omega]
        rw [h2]
        rfl
      · have hPIs : prodInflight { s with q := { s.q with head := (s.q.head + 1) % s.q.size }, consVal := none, consumed := s.consumed ++ [v] } = prodInflight s := by
          unfold prodInflight
          rfl
        dsimp only
        rw [hPIs, hch, hx]
        simp
  | none =>
    by_cases hempty : s.q.head = s.q.tail
    · have hmain : consStep s = s := by
        unfold consStep
        rw [hcv]
        simp [hempty]
      rw [hmain]
      exact ⟨hs, hh, ht, hp, hc, xs, hxl, hxt, hxe, hch⟩
    · have hmain : consStep s = { s with consVal := some (s.q.buffer s.q.head) } := by
        unfold consStep
        rw [hcv]
        simp [hempty]
      rw [hmain]
      refine ⟨hs, hh, ht, hp, ?_, xs, hxl, hxt, hxe, ?_⟩
      · intro w hw
        simp only [Option.some.injEq] at hw
        exact ⟨hempty, hw.symm⟩
      · have hPIs : prodInflight { s with consVal := some (s.q.buffer s.q.head) } = prodInflight s := by
          unfold prodInflight
          rfl
        rw [hPIs]
        exact hch

theorem spscRun_inv {vals : List Int} {s : SPSCState} (h : SPSCInv vals s)
    (sched : List Bool) : SPSCInv vals (spscRun s sched) := by
  induction sched generalizing s with
  | nil => exact h
  | cons b bs ih =>
    simp only [spscRun, List.foldl_cons]
    cases b with
    | false => exact ih (consStep_inv h)
    | true => exact ih (prodStep_inv h)

/-- C2 (amended): `queue_enqueue` claims its slot with a plain atomic
load of `tail` followed later by a plain atomic store (read-then-write),
not with a compare-and-swap: with two concurrent producers there is an
interleaving of the operation's atomic events in which both enqueues
report success, yet the queue ends with only one resident element,
`tail` advanced by one, and the first producer's value overwritten
(lost update).  Here producer 0 enqueues 10 and producer 1 enqueues 20
into an empty queue of capacity 4. -/
theorem c2_plain_read_then_write_loses_update :
    ∃ sched : List Bool,
      (mpRun 10 20 (mpInit (fun _ => 0) 4) sched).p0 = PPC.done true
      ∧ (mpRun 10 20 (mpInit (fun _ => 0) 4) sched).p1 = PPC.done true
      ∧ residentLen (mpRun 10 20 (mpInit (fun _ => 0) 4) sched).q = 1
      ∧ (mpRun 10 20 (mpInit (fun _ => 0) 4) sched).q.tail = 1
      ∧ (mpRun 10 20 (mpInit (fun _ => 0) 4) sched).q.buffer 0 = 20 :=
  ⟨[false, true, false, false, false, true, true, true], by decide⟩

/-- Counterexample to C2 as stated: if the tail update were an
indivisible claim-and-advance, two successful concurrent enqueues into
the empty capacity-4 queue would always leave two resident elements;
the concrete interleaving below (both producers load `tail = 0` before
either stores) has both report success with only one element resident. -/
theorem c2_counterexample :
    ¬ ((mpRun 10 20 (mpInit (fun _ => 0) 4) [false, true, false, false, false, true, true, true]).p0 = PPC.done true
       ∧ (mpRun 10 20 (mpInit (fun _ => 0) 4) [false, true, false, false, false, true, true, true]).p1 = PPC.done true
       → residentLen (mpRun 10 20 (mpInit (fun _ => 0) 4) [false, true, false, false, false, true, true, true]).q = 2) := by
  decide

/-- C3: over every sequence of operations from the freshly initialised
queue of capacity `C ≥ 1`: the resident count `(tail - head) mod C` is at
most `C - 1`; `queue_enqueue` reports failure exactly when
`(tail + 1) % C = head`; `queue_dequeue` reports failure exactly when
`head = tail`; and after a failed enqueue (queue at the full threshold),
one successful dequeue makes the next enqueue succeed. -/
theorem c3_capacity_and_boundary (C : Nat) (buf0 : Nat → Int) (ops : List QOp)
    (v w : Int) (hC : 1 ≤ C) :
    residentLen (runQOps (queue_init buf0 C) ops) ≤ C - 1
    ∧ ((queue_enqueue (runQOps (queue_init buf0 C) ops) v).2 = false ↔
        ((runQOps (queue_init buf0 C) ops).tail + 1) % C = (runQOps (queue_init buf0 C) ops).head)
    ∧ ((queue_dequeue (runQOps (queue_init buf0 C) ops)).2 = none ↔
        (runQOps (queue_init buf0 C) ops).head = (runQOps (queue_init buf0 C) ops).tail)
    ∧ ((queue_enqueue (runQOps (queue_init buf0 C) ops) v).2 = false →
        (queue_dequeue (runQOps (queue_init buf0 C) ops)).2 ≠ none →
        (queue_enqueue (queue_dequeue (runQOps (queue_init buf0 C) ops)).1 w).2 = true) := by
  have hsz : (runQOps (queue_init buf0 C) ops).size = C := runQOps_size _ _
  have hb := runQOps_bounds (queue_init buf0 C) ops hC hC hC
  set q := runQOps (queue_init buf0 C) ops with hqdef
  refine ⟨?_, ?_, ?_, ?_⟩
  · have h1 : residentLen q < C := by
      have := Nat.mod_lt (q.tail + q.size - q.head) hC
      simpa [residentLen, hsz] using this
    omega
  · rw [enqueue_snd_false_iff, hsz]
  · exact dequeue_snd_none_iff q
  · intro hfull hdeq
    have hfc : (q.tail + 1) % C = q.head := by
      rw [enqueue_snd_false_iff, hsz] at hfull
      exact hfull
    have hne : q.head ≠ q.tail := by
      intro h
      exact hdeq ((dequeue_snd_none_iff q).mpr h)
    have hC2 : 2 ≤ C := by
      rcases Nat.lt_or_ge C 2 with h | h
      · exfalso
        have hh : q.head < C := hsz ▸ hb.1
        have ht : q.tail < C := hsz ▸ hb.2
        omega
      · exact h
    rw [dequeue_success_queue q hne]
    have hcond : (q.tail + 1) % C ≠ (q.head + 1) % C := by
      rw [hfc]
      intro h
      exact succ_mod_ne_self hC2 (hsz ▸ hb.1) h.symm
    simp only [queue_enqueue]
    split
    · rename_i h
      exfalso
      apply hcond
      simpa [hsz] using h
    · rfl

/-- Witness for C3 at capacity 2: after one enqueue the queue is at its
full threshold (1 = C - 1 resident); enqueue fails there, and after one
dequeue the next enqueue succeeds. -/
theorem c3_capacity_and_boundary_witness :
    residentLen (runQOps (queue_init (fun _ => 0) 2) [QOp.enq 7]) ≤ 1
    ∧ (queue_enqueue (queue_dequeue (runQOps (queue_init (fun _ => 0) 2) [QOp.enq 7])).1 9).2 = true := by
  have h := c3_capacity_and_boundary 2 (fun _ => 0) [QOp.enq 7] 8 9 (by decide)
  exact ⟨h.1, h.2.2.2 (by decide) (by decide)⟩

/-- C6: when the queue is full (`(tail+1) % size == head`), `queue_enqueue`
returns failure immediately with the whole queue state (buffer, head, tail,
size) unchanged; when the queue is empty (`head == tail`), `queue_dequeue`
returns failure immediately with the whole queue state unchanged.  Both
operations are total functions of the current state: they never block. -/
theorem c6_nonblocking_failure_leaves_state (q : LFQueue) (v : Int) :
    ((q.tail + 1) % q.size = q.head → queue_enqueue q v = (q, false))
    ∧ (q.head = q.tail → queue_dequeue q = (q, none)) := by
  constructor
  · intro hfull
    simp [queue_enqueue, hfull]
  · intro hempty
    simp [queue_dequeue, hempty]

/-- Witness for C6 at a concrete state: the freshly initialised queue of
capacity 1 is simultaneously full and empty; both operations fail there
and return the state unchanged. -/
theorem c6_nonblocking_failure_leaves_state_witness :
    queue_enqueue (queue_init (fun _ => 0) 1) 5 = (queue_init (fun _ => 0) 1, false)
    ∧ queue_dequeue (queue_init (fun _ => 0) 1) = (queue_init (fun _ => 0) 1, none) :=
  ⟨(c6_nonblocking_failure_leaves_state (queue_init (fun _ => 0) 1) 5).1 (by decide),
   (c6_nonblocking_failure_leaves_state (queue_init (fun _ => 0) 1) 5).2 (by decide)⟩

/-- C4: in the single-producer/single-consumer machine the consumed
sequence is always a prefix of the produced sequence (FIFO), for every
capacity ≥ 1, every value sequence and every interleaving, with producer
retrying on full and consumer retrying on empty; in particular, pushing
1, 2, 3, 4, 5 through the capacity-4 queue (usable capacity 3), any
schedule after which all five values have been consumed delivered them
exactly in the order 1, 2, 3, 4, 5. -/
theorem c4_spsc_fifo (size : Nat) (buf0 : Nat → Int) (vals : List Int)
    (sched sched2 : List Bool) (hsize : 1 ≤ size) :
    (∃ rest, vals = (spscRun (spscInit buf0 size vals) sched).consumed ++ rest)
    ∧ ((spscRun (spscInit buf0 4 [1, 2, 3, 4, 5]) sched2).consumed.length = 5 →
        (spscRun (spscInit buf0 4 [1, 2, 3, 4, 5]) sched2).consumed = [1, 2, 3, 4, 5]) := by
  constructor
  · obtain ⟨-, -, -, -, -, xs, -, -, -, hch⟩ :=
      spscRun_inv (spscInit_inv buf0 size vals hsize) sched
    refine ⟨xs ++ prodInflight (spscRun (spscInit buf0 size vals) sched) ++ (spscRun (spscInit buf0 size vals) sched).pending, hch.trans ?_⟩
    simp [List.append_assoc]
  · intro hlen
    obtain ⟨-, -, -, -, -, xs, -, -, -, hch⟩ :=
      spscRun_inv (spscInit_inv buf0 4 [1, 2, 3, 4, 5] (by omega)) sched2
    have hlen2 := congrArg List.length hch
    simp only [List.length_append, List.length_cons, List.length_nil, hlen] at hlen2
    have hxnil : xs = [] := List.length_eq_zero.mp (by omega)
    have hpnil : (spscRun (spscInit buf0 4 [1, 2, 3, 4, 5]) sched2).pending = [] :=
      List.length_eq_zero.mp (by omega)
    have hinil : prodInflight (spscRun (spscInit buf0 4 [1, 2, 3, 4, 5]) sched2) = [] :=
      List.length_eq_zero.mp (by omega)
    rw [hxnil, hpnil, hinil] at hch
    simpa using hch.symm

/-- Witness for C4: a concrete interleaving of capacity 4 carrying all
five values; the consumer receives exactly 1, 2, 3, 4, 5. -/
theorem c4_spsc_fifo_witness :
    (spscRun (spscInit (fun _ => 0) 4 [1, 2, 3, 4, 5]) [true, true, false, false, true, true, false, false, true, true, false, false, true, true, false, false, true, true, false, false]).consumed = [1, 2, 3, 4, 5] :=
  (c4_spsc_fifo 4 (fun _ => 0) [1, 2, 3, 4, 5] [] [true, true, false, false, true, true, false, false, true, true, false, false, true, true, false, false, true, true, false, false] (by decide)).2 (by decide)

/-- C5: on every successful enqueue the payload write to `buffer[tail]`
occurs strictly before the store publishing `next_tail` — they are
events 2 and 3 of the operation's shared-memory trace; consequently, in
the SPSC machine, whenever the consumer observes `head ≠ tail` the slot
at `head` already holds exactly the next produced value: an observable
`tail` never points past a slot whose payload write has not happened. -/
theorem c5_write_visible_before_publish (q : LFQueue) (item : Int)
    (size : Nat) (buf0 : Nat → Int) (vals : List Int) (sched : List Bool)
    (hsucc : (queue_enqueue q item).2 = true) (hsize : 1 ≤ size) :
    (queue_enqueue_events q item).get? 2 = some (QEvent.writeBufEv q.tail item)
    ∧ (queue_enqueue_events q item).get? 3 = some (QEvent.storeTailEv ((q.tail + 1) % q.size))
    ∧ ((spscRun (spscInit buf0 size vals) sched).q.head ≠ (spscRun (spscInit buf0 size vals) sched).q.tail →
        (spscRun (spscInit buf0 size vals) sched).q.buffer (spscRun (spscInit buf0 size vals) sched).q.head
          = vals.getD (spscRun (spscInit buf0 size vals) sched).consumed.length 0) := by
  have hne : ¬ (q.tail + 1) % q.size = q.head := by
    intro h
    have hf := (enqueue_snd_false_iff q item).mpr h
    rw [hsucc] at hf
    cases hf
  refine ⟨?_, ?_, ?_⟩
  · simp only [queue_enqueue_events, if_neg hne]
    rfl
  · simp only [queue_enqueue_events, if_neg hne]
    rfl
  · intro hne2
    obtain ⟨hs, hh, ht, hp, hc, xs, hxl, hxt, hxe, hch⟩ :=
      spscRun_inv (spscInit_inv buf0 size vals hsize) sched
    have hL0 : xs.length ≠ 0 := by
      intro h0
      apply hne2
      rw [hxt, h0, Nat.add_zero, Nat.mod_eq_of_lt hh]
    have h0 := hxe 0 (Nat.pos_of_ne_zero hL0)
    rw [Nat.add_zero, Nat.mod_eq_of_lt hh] at h0
    have hgd := congrArg (fun l => l.getD (spscRun (spscInit buf0 size vals) sched).consumed.length 0) hch
    dsimp only at hgd
    simp only [List.append_assoc] at hgd
    rw [List.getD_append_right _ _ _ _ (Nat.le_refl _), Nat.sub_self,
      List.getD_append _ _ _ _ (Nat.pos_of_ne_zero hL0)] at hgd
    rw [h0]
    exact hgd.symm

/-- Witness for C5: a successful enqueue on the fresh capacity-4 queue
has its payload write as event 2, and after one full produce (two
producer steps) the consumer-visible head slot holds the first value. -/
theorem c5_write_visible_before_publish_witness :
    (queue_enqueue_events (queue_init (fun _ => 0) 4) 7).get? 2 = some (QEvent.writeBufEv 0 7)
    ∧ (spscRun (spscInit (fun _ => 0) 4 [1, 2, 3, 4, 5]) [true, true]).q.buffer 0 = 1 := by
  have h := c5_write_visible_before_publish (queue_init (fun _ => 0) 4) 7 4 (fun _ => 0)
    [1, 2, 3, 4, 5] [true, true] (by decide) (by decide)
  refine ⟨h.1, ?_⟩
  have h3 := h.2.2 (by decide)
  have hhd : (spscRun (spscInit (fun _ => 0) 4 [1, 2, 3, 4, 5]) [true, true]).q.head = 0 := by decide
  have hcl : (spscRun (spscInit (fun _ => 0) 4 [1, 2, 3, 4, 5]) [true, true]).consumed.length = 0 := by decide
  rw [hhd, hcl] at h3
  simpa using h3

/-! ## Invariant preservation for the counter race -/

theorem cinit_inv (T I : Nat) : CInv T I (cinit I) := by
  refine ⟨fun i => Nat.le_refl I, ?_, ?_⟩
  · simp [cinit]
  · intro i o h
    simp [cinit] at h

theorem cstep_inv (useLSE : Nat → Bool) {T I : Nat} {s : CState} (h : CInv T I s)
    (i : Nat) (hi : i < T) : CInv T I (cstep useLSE s i) := by
  obtain ⟨hrem, hcnt, hres⟩ := h
  have hmem : i ∈ Finset.range T := Finset.mem_range.mpr hi
  have hupd : ∀ c : Nat, s.rem i ≠ 0 →
      ((c + 1) % two32 = (∑ j in Finset.range T, (I - Function.update s.rem i (s.rem i - 1) j)) % two32
        ↔ (c + 1) % two32 = ((∑ j in Finset.range T, (I - s.rem j)) + 1) % two32) := by
    intro c hz
    have hfun : (fun j => I - Function.update s.rem i (s.rem i - 1) j)
        = Function.update (fun j => I - s.rem j) i (I - (s.rem i - 1)) := by
      funext j
      by_cases hj : j = i
      · subst hj
        simp
      · simp [Function.update_noteq hj]
    rw [hfun, Finset.sum_update_of_mem hmem]
    rw [← Finset.add_sum_erase _ (fun j => I - s.rem j) hmem, Finset.erase_eq]
    have hle := hrem i
    have harith : I - (s.rem i - 1) + ∑ j in Finset.range T \ {i}, (I - s.rem j)
        = (I - s.rem i + ∑ j in Finset.range T \ {i}, (I - s.rem j)) + 1 := by
      omega
    rw [harith]
  by_cases hl : useLSE i = true
  · by_cases hz : s.rem i = 0
    · have hstep : cstep useLSE s i = s := by
        simp [cstep, hl, hz]
      rw [hstep]
      exact ⟨hrem, hcnt, hres⟩
    · have hstep : cstep useLSE s i = { counter := (s.counter + 1) % two32, rem := Function.update s.rem i (s.rem i - 1), res := fun _ => none } := by
        simp [cstep, hl, hz]
      rw [hstep]
      refine ⟨?_, ?_, ?_⟩
      · intro j
        by_cases hj : j = i
        · subst hj
          simp only [Function.update_same]
          have := hrem j
          omega
        · simp only [Function.update_noteq hj]
          exact hrem j
      · dsimp only
        rw [hupd s.counter hz, hcnt, Nat.mod_add_mod]
      · intro j o hj
        simp at hj
  · cases hr : s.res i with
    | some old =>
      obtain ⟨ho, hge⟩ := hres i old hr
      have hz : s.rem i ≠ 0 := by omega
      have hstep : cstep useLSE s i = { counter := (old + 1) % two32, rem := Function.update s.rem i (s.rem i - 1), res := fun _ => none } := by
        simp [cstep, hl, hr]
      rw [hstep]
      refine ⟨?_, ?_, ?_⟩
      · intro j
        by_cases hj : j = i
        · subst hj
          simp only [Function.update_same]
          have := hrem j
          omega
        · simp only [Function.update_noteq hj]
          exact hrem j
      · dsimp only
        rw [ho, hupd s.counter hz, hcnt, Nat.mod_add_mod]
      · intro j o hj
        simp at hj
    | none =>
      by_cases hz : s.rem i = 0
      · have hstep : cstep useLSE s i = s := by
          simp [cstep, hl, hr, hz]
        rw [hstep]
        exact ⟨hrem, hcnt, hres⟩
      · have hstep : cstep useLSE s i = { s with res := Function.update s.res i (some s.counter) } := by
          simp [cstep, hl, hr, hz]
        rw [hstep]
        refine ⟨hrem, hcnt, ?_⟩
        intro j o hj
        dsimp only at hj ⊢
        by_cases hji : j = i
        · subst hji
          rw [Function.update_same] at hj
          have hoc : o = s.counter := by
            injection hj with h
            exact h.symm
          exact ⟨hoc, by omega⟩
        · rw [Function.update_noteq hji] at hj
          exact hres j o hj

theorem crun_inv (useLSE : Nat → Bool) {T I : Nat} (sched : List Nat) :
    ∀ s : CState, CInv T I s → (∀ i ∈ sched, i < T) → CInv T I (crun useLSE s sched) := by
  induction sched with
  | nil =>
    intro s h _
    exact h
  | cons a l ih =>
    intro s h hs
    simp only [crun, List.foldl_cons]
    exact ih _ (cstep_inv useLSE h a (hs a (List.mem_cons_self a l)))
      (fun i hi => hs i (List.mem_cons_of_mem a hi))

theorem crun_append (useLSE : Nat → Bool) (s : CState) (l1 l2 : List Nat) :
    crun useLSE s (l1 ++ l2) = crun useLSE (crun useLSE s l1) l2 :=
  List.foldl_append _ _ _ _

theorem crun_replicate_lse (useLSE : Nat → Bool) (i : Nat) (hl : useLSE i = true) :
    ∀ (k : Nat) (s : CState), 1 ≤ k → s.rem i = k →
      crun useLSE s (List.replicate k i) =
        { counter := (s.counter + k) % two32, rem := Function.update s.rem i 0, res := fun _ => none } := by
  intro k
  induction k with
  | zero =>
    intro s h _
    exact absurd h (by omega)
  | succ k ih =>
    intro s hk hrem
    rw [List.replicate_succ]
    simp only [crun, List.foldl_cons]
    have hz : s.rem i ≠ 0 := by omega
    have hstep : cstep useLSE s i = { counter := (s.counter + 1) % two32, rem := Function.update s.rem i (s.rem i - 1), res := fun _ => none } := by
      simp [cstep, hl, hz]
    rw [hstep]
    cases Nat.eq_zero_or_pos k with
    | inl h0 =>
      subst h0
      simp only [List.replicate, List.foldl_nil]
      rw [hrem]
    | inr hpos =>
      have hs1 : ({ counter := (s.counter + 1) % two32, rem := Function.update s.rem i (s.rem i - 1), res := fun _ => none } : CState).rem i = k := by
        simp only [Function.update_same]
        omega
      have h2 := ih { counter := (s.counter + 1) % two32, rem := Function.update s.rem i (s.rem i - 1), res := fun _ => none } hpos hs1
      rw [show List.foldl (cstep useLSE) ({ counter := (s.counter + 1) % two32, rem := Function.update s.rem i (s.rem i - 1), res := fun _ => none } : CState) (List.replicate k i) = crun useLSE { counter := (s.counter + 1) % two32, rem := Function.update s.rem i (s.rem i - 1), res := fun _ => none } (List.replicate k i) from rfl, h2]
      congr 1
      · dsimp only
        rw [Nat.mod_add_mod]
        congr 1
        omega
      · dsimp only
        rw [Function.update_idem]

/-- C1 (amended): for every thread count `T ≥ 1`, iteration count
`I ≥ 1`, any assignment of the two strategies to threads and any
interleaving of the threads' atomic events after which every thread has
finished its iterations, the shared 32-bit counter holds
`(T * I) mod 2^32` — and therefore exactly `T * I` whenever
`T * I ≤ 2^31 - 1` (no wraparound). -/
theorem c1_counter_equals_threads_times_iterations (T I : Nat) (useLSE : Nat → Bool)
    (sched : List Nat) (hT : 1 ≤ T) (hI : 1 ≤ I)
    (hsched : ∀ i ∈ sched, i < T)
    (hdone : ∀ i, i < T → (crun useLSE (cinit I) sched).rem i = 0) :
    (crun useLSE (cinit I) sched).counter = (T * I) % two32
    ∧ (T * I < 2147483648 → (crun useLSE (cinit I) sched).counter = T * I) := by
  obtain ⟨hrem, hcnt, hres⟩ := crun_inv useLSE sched (cinit I) (cinit_inv T I) hsched
  have hsum : (∑ i in Finset.range T, (I - (crun useLSE (cinit I) sched).rem i)) = T * I := by
    rw [Finset.sum_congr rfl (fun j hj => by rw [hdone j (Finset.mem_range.mp hj), Nat.sub_zero])]
    simp [Finset.sum_const, Finset.card_range, Nat.smul_one_eq_cast]
  constructor
  · rw [hcnt, hsum]
  · intro hlt
    rw [hcnt, hsum]
    have hW : T * I < two32 := by
      simp only [two32]
      omega
    exact Nat.mod_eq_of_lt hW

/-- Witness for C1: two threads, two iterations each, thread 0 on the
fetch-and-add strategy and thread 1 on the exclusive-load/store loop;
after a schedule completing both, the counter is 2 × 2 = 4. -/
theorem c1_counter_equals_threads_times_iterations_witness :
    (crun (fun i => i == 0) (cinit 2) [0, 0, 1, 1, 1, 1]).counter = 2 * 2 :=
  (c1_counter_equals_threads_times_iterations 2 2 (fun i => i == 0) [0, 0, 1, 1, 1, 1]
    (by decide) (by decide) (by decide) (by decide)).2 (by decide)

/-- Counterexample to C1 as stated: the counter is a 32-bit `int`, so
with 4 threads of 2^30 fetch-and-add iterations each (a completed run is
exhibited: the four threads run to completion one after the other) the
final counter is (4 * 2^30) mod 2^32 = 0, not the claimed exact value
T * I = 4294967296, which does not fit in the counter. -/
theorem c1_counterexample :
    (∀ i, i < 4 →
      (crun (fun _ => true) (cinit 1073741824)
        (List.replicate 1073741824 0 ++ List.replicate 1073741824 1 ++ List.replicate 1073741824 2 ++ List.replicate 1073741824 3)).rem i = 0)
    ∧ (crun (fun _ => true) (cinit 1073741824)
        (List.replicate 1073741824 0 ++ List.replicate 1073741824 1 ++ List.replicate 1073741824 2 ++ List.replicate 1073741824 3)).counter
        ≠ 4 * 1073741824 := by
  have e0 : crun (fun _ => true) (cinit 1073741824) (List.replicate 1073741824 0)
      = { counter := (0 + 1073741824) % two32, rem := Function.update (fun _ => 1073741824) 0 0, res := fun _ => none } :=
    crun_replicate_lse (fun _ => true) 0 rfl 1073741824 (cinit 1073741824) (by omega) rfl
  have e1 : crun (fun _ => true) { counter := (0 + 1073741824) % two32, rem := Function.update (fun _ => 1073741824) 0 0, res := fun _ => none } (List.replicate 1073741824 1)
      = { counter := ((0 + 1073741824) % two32 + 1073741824) % two32, rem := Function.update (Function.update (fun _ => 1073741824) 0 0) 1 0, res := fun _ => none } :=
    crun_replicate_lse (fun _ => true) 1 rfl 1073741824 _ (by omega) (by simp [Function.update])
  have e2 : crun (fun _ => true) { counter := ((0 + 1073741824) % two32 + 1073741824) % two32, rem := Function.update (Function.update (fun _ => 1073741824) 0 0) 1 0, res := fun _ => none } (List.replicate 1073741824 2)
      = { counter := (((0 + 1073741824) % two32 + 1073741824) % two32 + 1073741824) % two32, rem := Function.update (Function.update (Function.update (fun _ => 1073741824) 0 0) 1 0) 2 0, res := fun _ => none } :=
    crun_replicate_lse (fun _ => true) 2 rfl 1073741824 _ (by omega) (by simp [Function.update])
  have e3 : crun (fun _ => true) { counter := (((0 + 1073741824) % two32 + 1073741824) % two32 + 1073741824) % two32, rem := Function.update (Function.update (Function.update (fun _ => 1073741824) 0 0) 1 0) 2 0, res := fun _ => none } (List.replicate 1073741824 3)
      = { counter := ((((0 + 1073741824) % two32 + 1073741824) % two32 + 1073741824) % two32 + 1073741824) % two32, rem := Function.update (Function.update (Function.update (Function.update (fun _ => 1073741824) 0 0) 1 0) 2 0) 3 0, res := fun _ => none } :=
    crun_replicate_lse (fun _ => true) 3 rfl 1073741824 _ (by omega) (by simp [Function.update])
  rw [crun_append, crun_append, crun_append, e0, e1, e2, e3]
  constructor
  · intro i hi
    interval_cases i <;> simp [Function.update]
  · dsimp only
    simp only [Nat.mod_add_mod]
    decide

/-! ## Sums: the produced values and the expected-total loop -/

theorem foldl_add_map (f : Nat → Nat) :
    ∀ (l : List Nat) (a : Nat), l.foldl (fun x y => x + f y) a = a + (l.map f).sum := by
  intro l
  induction l with
  | nil =>
    intro a
    simp
  | cons b bs ih =>
    intro a
    simp only [List.foldl_cons, List.map_cons, List.sum_cons]
    rw [ih]
    omega

theorem foldl_wadd_map (f : Nat → Nat) :
    ∀ (l : List Nat) (a : Nat), a < two32 →
      l.foldl (fun x y => (x + f y % two32) % two32) a = (a + (l.map f).sum) % two32 := by
  intro l
  induction l with
  | nil =>
    intro a ha
    simp [Nat.mod_eq_of_lt ha]
  | cons b bs ih =>
    intro a ha
    simp only [List.foldl_cons, List.map_cons, List.sum_cons]
    rw [ih _ (Nat.mod_lt _ (by decide))]
    rw [Nat.mod_add_mod]
    have hcg : (a + f b % two32 + (bs.map f).sum) % two32 = (a + f b + (bs.map f).sum) % two32 :=
      Nat.ModEq.add_right _ (Nat.ModEq.add_left _ (Nat.mod_modEq _ _))
    rw [hcg, Nat.add_assoc]

theorem expected_total_exact_eq_sum (P M : Nat) :
    expected_total_exact P M = ((List.range P).map (fun p => (producedValues p M).sum)).sum := by
  unfold expected_total_exact
  have hfun : (fun (acc p : Nat) => (List.range M).foldl (fun a j => a + (p * M + j + 1)) acc)
      = (fun acc p => acc + (producedValues p M).sum) := by
    funext acc p
    exact foldl_add_map (fun j => p * M + j + 1) (List.range M) acc
  rw [hfun, foldl_add_map (fun p => (producedValues p M).sum) (List.range P) 0]
  simp

theorem expected_total_int_eq_mod (P M : Nat) :
    expected_total_int P M = expected_total_exact P M % two32 := by
  rw [expected_total_exact_eq_sum]
  suffices h : ∀ (l : List Nat) (a : Nat), a < two32 →
      l.foldl (fun acc p => (List.range M).foldl (fun x j => (x + (p * M + j + 1) % two32) % two32) acc) a
        = (a + (l.map (fun p => (producedValues p M).sum)).sum) % two32 by
    have h0 := h (List.range P) 0 (by decide)
    unfold expected_total_int
    rw [h0]
    simp
  intro l
  induction l with
  | nil =>
    intro a ha
    simp [Nat.mod_eq_of_lt ha]
  | cons b bs ih =>
    intro a ha
    simp only [List.foldl_cons, List.map_cons, List.sum_cons]
    rw [foldl_wadd_map _ _ _ ha]
    rw [ih _ (Nat.mod_lt _ (by decide))]
    rw [Nat.mod_add_mod, Nat.add_assoc]
    rfl

theorem wsum32_eq_sum_mod (l : List Nat) : wsum32 l = l.sum % two32 := by
  have h := foldl_wadd_map (fun x => x) l 0 (by decide)
  simpa [wsum32] using h

theorem producedValues_sum_mul_two (b M : Nat) :
    2 * ((List.range M).map (fun i => b + i + 1)).sum = M * (2 * b + M + 1) := by
  induction M with
  | zero => simp
  | succ m ih =>
    rw [List.range_succ, List.map_append, List.sum_append]
    simp only [List.map_cons, List.map_nil, List.sum_cons, List.sum_nil, Nat.add_zero]
    calc 2 * (((List.range m).map (fun i => b + i + 1)).sum + (b + m + 1))
        = 2 * ((List.range m).map (fun i => b + i + 1)).sum + 2 * (b + m + 1) := by ring
      _ = m * (2 * b + m + 1) + 2 * (b + m + 1) := by rw [ih]
      _ = (m + 1) * (2 * b + (m + 1) + 1) := by ring

theorem expected_total_exact_mul_two (P M : Nat) :
    2 * expected_total_exact P M = P * M * (P * M + 1) := by
  rw [expected_total_exact_eq_sum]
  induction P with
  | zero => simp
  | succ p ih =>
    rw [List.range_succ, List.map_append, List.sum_append]
    simp only [List.map_cons, List.map_nil, List.sum_cons, List.sum_nil, Nat.add_zero]
    have hin : 2 * (producedValues p M).sum = M * (2 * (p * M) + M + 1) :=
      producedValues_sum_mul_two (p * M) M
    calc 2 * (((List.range p).map (fun q => (producedValues q M).sum)).sum + (producedValues p M).sum)
        = 2 * ((List.range p).map (fun q => (producedValues q M).sum)).sum + 2 * (producedValues p M).sum := by ring
      _ = p * M * (p * M + 1) + M * (2 * (p * M) + M + 1) := by rw [ih, hin]
      _ = (p + 1) * M * ((p + 1) * M + 1) := by ring

/-- C7 (amended): the expected-total double loop computes, in exact
arithmetic, the sum of all produced values `p * M + i + 1`, whose closed
form is `P·M·(P·M+1)/2`; as executed on the 32-bit `int` of the source
it yields that value reduced modulo 2^32 — hence exactly
`P·M·(P·M+1)/2` whenever that sum is below 2^31, and in particular
2,001,000 for 2 producers of 1,000 items each. -/
theorem c7_expected_total_closed_form (P M : Nat) :
    2 * expected_total_exact P M = P * M * (P * M + 1)
    ∧ expected_total_exact P M = ((List.range P).map (fun p => (producedValues p M).sum)).sum
    ∧ expected_total_int P M = (P * M * (P * M + 1) / 2) % two32
    ∧ (P * M * (P * M + 1) / 2 < 2147483648 → expected_total_int P M = P * M * (P * M + 1) / 2)
    ∧ expected_total_int 2 1000 = 2001000 := by
  have h2 := expected_total_exact_mul_two P M
  have hdiv : expected_total_exact P M = P * M * (P * M + 1) / 2 := by omega
  refine ⟨h2, expected_total_exact_eq_sum P M, ?_, ?_, ?_⟩
  · rw [expected_total_int_eq_mod, hdiv]
  · intro hlt
    rw [expected_total_int_eq_mod, hdiv]
    exact Nat.mod_eq_of_lt (by simp only [two32]; omega)
  · have h22 := expected_total_exact_mul_two 2 1000
    have hv : expected_total_exact 2 1000 = 2001000 := by omega
    rw [expected_total_int_eq_mod 2 1000, hv]
    decide

/-- Witness for C7 at the spec's concrete scenario: 2 producers of
1,000 items each; the loop yields 2·1000·(2·1000+1)/2 = 2,001,000. -/
theorem c7_expected_total_closed_form_witness :
    expected_total_int 2 1000 = 2 * 1000 * (2 * 1000 + 1) / 2 :=
  (c7_expected_total_closed_form 2 1000).2.2.2.1 (by norm_num)

/-- Counterexample to C7 as stated: at the compiled-in parameters
(2 producers × 1,000,000 items) the expected-total loop, computed in the
source's 32-bit `int`, does not equal the sum of all produced values
P·M·(P·M+1)/2 = 2,000,001,000,000 — it wraps modulo 2^32. -/
theorem c7_counterexample :
    expected_total_int 2 1000000 ≠ 2 * 1000000 * (2 * 1000000 + 1) / 2 := by
  have h2 := expected_total_exact_mul_two 2 1000000
  have hval : expected_total_exact 2 1000000 = 2000001000000 := by omega
  rw [expected_total_int_eq_mod, hval]
  decide

/-- C8: both the consumers' running total and the expected total live in
32-bit `int` arithmetic; at the compiled-in parameters (2 producers ×
1,000,000 items) the mathematical sum is 2,000,001,000,000 > 2^31 - 1,
so the expected-total loop overflows: its 32-bit result is the true sum
mod 2^32 and prints as the negative value -1,453,759,936.  In general
the 32-bit totals (the wrapping consumer sum `wsum32` and the loop)
agree with the mathematical sum only modulo 2^32, exactly iff that sum
is below 2^31. -/
theorem c8_totals_32bit_overflow :
    expected_total_exact 2 1000000 = 2000001000000
    ∧ 2147483647 < expected_total_exact 2 1000000
    ∧ expected_total_int 2 1000000 = 2000001000000 % two32
    ∧ toSigned (expected_total_int 2 1000000) = -1453759936
    ∧ (∀ l : List Nat, wsum32 l = l.sum % two32)
    ∧ (∀ P M : Nat, expected_total_int P M = expected_total_exact P M % two32)
    ∧ (∀ P M : Nat, expected_total_exact P M < 2147483648 →
        toSigned (expected_total_int P M) = (expected_total_exact P M : Int))
    ∧ (∀ P M : Nat, 2147483648 ≤ expected_total_exact P M →
        toSigned (expected_total_int P M) ≠ (expected_total_exact P M : Int)) := by
  have h2 := expected_total_exact_mul_two 2 1000000
  have hval : expected_total_exact 2 1000000 = 2000001000000 := by omega
  refine ⟨hval, by omega, ?_, ?_, wsum32_eq_sum_mod, expected_total_int_eq_mod, ?_, ?_⟩
  · rw [expected_total_int_eq_mod, hval]
  · have hmodv : 2000001000000 % two32 = 2841207360 := by decide
    rw [expected_total_int_eq_mod, hval, hmodv]
    unfold toSigned
    rw [if_neg (by norm_num)]
    norm_num
  · intro P M hlt
    rw [expected_total_int_eq_mod]
    unfold toSigned
    simp only [two32]
    rw [if_pos (by omega)]
    exact_mod_cast Nat.mod_eq_of_lt (by omega)
  · intro P M hge
    rw [expected_total_int_eq_mod]
    unfold toSigned
    simp only [two32]
    by_cases hc : expected_total_exact P M % 4294967296 < 2147483648
    · rw [if_pos hc]
      intro hEq
      have hEq2 : expected_total_exact P M % 4294967296 = expected_total_exact P M := by
        exact_mod_cast hEq
      omega
    · rw [if_neg hc]
      intro hEq
      have hm : expected_total_exact P M % 4294967296 < 4294967296 :=
        Nat.mod_lt _ (by omega)
      omega

/-- Witness for C8: at 1 producer of 1 item the sums fit in 32 bits and
the printed signed value is the exact mathematical sum, 1. -/
theorem c8_totals_32bit_overflow_witness :
    toSigned (expected_total_int 1 1) = 1 := by
  have h := c8_totals_32bit_overflow.2.2.2.2.2.2.1 1 1 (by decide)
  rw [h]
  decide

/-- C9 (amended): after a run, part_003's `main` prints the observed
total and the expected total as two plain value lines — for every pair
of totals, matching or not, the output is exactly those two lines with
no comparison performed and no failure indicator — and returns 0;
lse_benchmark.c's `main` prints only the final counter value per
strategy (it computes no expected value at all) and returns 0. -/
theorem c9_report_prints_without_comparison (total expected c : Int) :
    part003_report total expected = [finalTotalLabel ++ toString total, expectedTotalLabel ++ toString expected]
    ∧ part003_exit = 0
    ∧ lse_report c = finalCounterLabel ++ toString c
    ∧ lse_exit = 0 :=
  ⟨rfl, rfl, rfl, rfl⟩

/-- Counterexample to C9 as stated: at the mismatching pair
(observed 0, expected 2,001,000) the harness's output is merely the two
printed value lines — no extra failure indicator appears anywhere in the
report and the exit status is still 0. -/
theorem c9_counterexample :
    (0 : Int) ≠ 2001000
    ∧ part003_report 0 2001000 = [finalTotalLabel ++ toString (0 : Int), expectedTotalLabel ++ toString (2001000 : Int)]
    ∧ (part003_report 0 2001000).length = 2
    ∧ part003_exit = 0 :=
  ⟨by decide, rfl, rfl, rfl⟩

/-- C10 (amended): the counter harness checks both counter allocations
— on any failed `malloc` it prints the `perror` diagnostic and returns
exit code 1 without running the scenario, and proceeds only when both
succeed; the queue harness performs no such check: `queue_init` stores
the possibly-NULL buffer pointer and `main` proceeds to the scenario
unconditionally. -/
theorem c10_alloc_check_only_in_counter_harness (m1 m2 : Bool) (alloc : Option (Nat → Int)) :
    (m1 = false ∨ m2 = false → lse_alloc_check m1 m2 = StartOutcome.aborted mallocDiag 1)
    ∧ (m1 = true → m2 = true → lse_alloc_check m1 m2 = StartOutcome.proceeded)
    ∧ (part003_start alloc).didProceed = true
    ∧ (queue_init_alloc alloc 1000000).buffer = alloc := by
  refine ⟨?_, ?_, ?_, rfl⟩
  · intro h
    rcases h with h | h <;> simp [lse_alloc_check, h]
  · intro h1 h2
    simp [lse_alloc_check, h1, h2]
  · cases alloc <;> rfl

/-- Witness for C10: with the first `malloc` failing the counter
harness aborts with the `perror` diagnostic and exit code 1, while the
queue harness, its `malloc` failing too, still proceeds. -/
theorem c10_alloc_check_only_in_counter_harness_witness :
    lse_alloc_check false true = StartOutcome.aborted mallocDiag 1
    ∧ (part003_start none).didProceed = true :=
  ⟨(c10_alloc_check_only_in_counter_harness false true none).1 (Or.inl rfl),
   (c10_alloc_check_only_in_counter_harness false true none).2.2.1⟩

/-- Counterexample to C10 as stated: when the queue buffer allocation
fails (`malloc` returns NULL), part_003 does not print a diagnostic and
does not terminate — `queue_init` records the NULL buffer and the
program proceeds to run the scenario. -/
theorem c10_counterexample :
    (part003_start none).didProceed = true
    ∧ (part003_start none).bufferMissing = true :=
  ⟨rfl, rfl⟩
